import Mathlib

/-!
Verification of an open-addressing hash table with linear probing
(`src/lib.rs`, `HashTable<K, V>`).

The Rust structure `HashTable { slots: Vec<Option<(K, V)>>, size: usize }`
is embedded as a Lean structure over `List (Option (K × V))`.  The ambient
`DefaultHasher` is modelled by an arbitrary pure function `hf : K → Nat`
(the source reduces `hasher.finish() as usize` modulo the current
capacity; every theorem below is proved for every such `hf`).

Loop translation notes:
* `find_slot`'s probe loop increments `index = (index + 1) % capacity`
  and stops with `None` as soon as `index` wraps back to the ideal index,
  so it executes at most `capacity` iterations.  `findSlotAux` runs the
  same loop with an explicit step counter initialised to `capacity`;
  reaching `0` is exactly the source's wrap-around stop.
* the placement loop inside `insert` has no wrap-around check and would
  not terminate on a table with no `None` slot.  `findEmptyAux` runs it
  for at most `capacity` steps (which visits every slot once); the
  `none` result therefore corresponds to the diverging (full-table)
  case, which `insert` maps to returning the table unchanged.  The
  theorems about `insert_ok` show this case is unreachable from `new`.
-/

set_option linter.unusedSectionVars false
set_option linter.unreachableTactic false
set_option linter.unusedTactic false

namespace HashTableProof

/-- The fixed initial capacity of the table (`INITIAL_CAPACITY` in the source). -/
def INITIAL_CAPACITY : Nat := 16

/-- One backing array of optional (key, value) slots, `Vec<Option<(K, V)>>`. -/
abbrev Slots (K V : Type) := List (Option (K × V))

/-- `HashTable<K, V>`: the slot array plus the count of occupied slots. -/
structure HashTable (K V : Type) where
  slots : Slots K V
  size : Nat
deriving DecidableEq

variable {K V : Type} [DecidableEq K]

/-- `self.slots[i]` (total: `none` out of bounds; every use in the source is in bounds). -/
def slotAt : Slots K V → Nat → Option (K × V)
  | [], _ => none
  | s :: _, 0 => s
  | _ :: rest, n + 1 => slotAt rest n

/-- Number of `some` (Occupied) slots in the backing array. -/
def countSome : Slots K V → Nat
  | [] => 0
  | none :: rest => countSome rest
  | some _ :: rest => countSome rest + 1

/-- `old_slots.into_iter().flatten()`: the occupied pairs in array order. -/
def occupiedPairs : Slots K V → List (K × V)
  | [] => []
  | none :: rest => occupiedPairs rest
  | some p :: rest => p :: occupiedPairs rest

/-- `HashTable::new()`: 16 slots, all `None`, size 0. -/
def HashTable.new : HashTable K V :=
  ⟨List.replicate INITIAL_CAPACITY none, 0⟩

/-- The probe loop of `find_slot`.  `i` is the current index and the second
`Nat` is the number of steps left before the index wraps back to the ideal
index (the source stops with `None` when `index == self.hash(key)` again,
i.e. after exactly `capacity` increments). -/
def findSlotAux (slots : Slots K V) (key : K) : Nat → Nat → Option Nat
  | _, 0 => none
  | i, fuel + 1 =>
    match slotAt slots i with
    | none => none
    | some (k, _) =>
      if k = key then some i
      else findSlotAux slots key ((i + 1) % slots.length) fuel

/-- `HashTable::find_slot`: scan forward with wraparound from
`hash(key) % capacity`. -/
def find_slot (hf : K → Nat) (t : HashTable K V) (key : K) : Option Nat :=
  findSlotAux t.slots key (hf key % t.slots.length) t.slots.length

/-- The placement loop of `insert`: scan forward from the ideal index until a
`None` slot.  The source loop has no wrap-around stop; running it for
`capacity` steps visits every slot, so a `none` result means the table has no
empty slot and the source loop would diverge. -/
def findEmptyAux (slots : Slots K V) : Nat → Nat → Option Nat
  | _, 0 => none
  | i, fuel + 1 =>
    match slotAt slots i with
    | none => some i
    | some _ => findEmptyAux slots ((i + 1) % slots.length) fuel

/-- `insert` as called during `resize`.  During re-insertion the growth check
`size * 2 >= capacity` is always false (the fold starts from size 0 and adds
at most one per processed slot while the capacity was doubled), so the
recursive `self.insert` call inside `resize` never grows again; this
non-growing body is the exact remainder of `insert`.
`insert_eq_insertNoResize` below makes the equivalence precise. -/
def insertNoResize (hf : K → Nat) (t : HashTable K V) (key : K) (value : V) :
    HashTable K V :=
  match find_slot hf t key with
  | some i => ⟨t.slots.set i (some (key, value)), t.size⟩
  | none =>
    match findEmptyAux t.slots (hf key % t.slots.length) t.slots.length with
    | some i => ⟨t.slots.set i (some (key, value)), t.size + 1⟩
    | none => t

/-- Re-insert a list of pairs via the (non-growing) insert path. -/
def reinsertAll (hf : K → Nat) (t : HashTable K V) (ps : List (K × V)) :
    HashTable K V :=
  ps.foldl (fun acc p => insertNoResize hf acc p.1 p.2) t

/-- `HashTable::resize`: allocate `self.slots.len() * 2` empty slots, reset
size to 0, and re-insert every occupied pair in original array order. -/
def resize (hf : K → Nat) (t : HashTable K V) : HashTable K V :=
  reinsertAll hf ⟨List.replicate (t.slots.length * 2) none, 0⟩
    (occupiedPairs t.slots)

/-- The conditional growth step at the start of the non-overwriting branch of
`insert`: `if self.size * 2 >= self.slots.len() { self.resize(); }`. -/
def growIfNeeded (hf : K → Nat) (t : HashTable K V) : HashTable K V :=
  if t.slots.length ≤ t.size * 2 then resize hf t else t

/-- `HashTable::insert`. -/
def insert (hf : K → Nat) (t : HashTable K V) (key : K) (value : V) :
    HashTable K V :=
  match find_slot hf t key with
  | some i => ⟨t.slots.set i (some (key, value)), t.size⟩
  | none =>
    let t1 := growIfNeeded hf t
    match findEmptyAux t1.slots (hf key % t1.slots.length) t1.slots.length with
    | some i => ⟨t1.slots.set i (some (key, value)), t1.size + 1⟩
    | none => t1

/-- `HashTable::get`: look up via `find_slot` and return the stored value.
(The source's `unwrap` cannot fail: `find_slot` only returns occupied
indices, see `findSlotAux_sound`.) -/
def get (hf : K → Nat) (t : HashTable K V) (key : K) : Option V :=
  match find_slot hf t key with
  | some i => (slotAt t.slots i).map Prod.snd
  | none => none

/-- `HashTable::remove`: locate via `find_slot`; if found, clear the slot to
`None` (`Option::take`), decrement size, and return the removed value.
Returns the removed value together with the updated table.  (The inner
`none` case models the source's unreachable `unwrap` of an occupied slot.) -/
def remove (hf : K → Nat) (t : HashTable K V) (key : K) :
    Option V × HashTable K V :=
  match find_slot hf t key with
  | some i =>
    match slotAt t.slots i with
    | some (_, v) => (some v, ⟨t.slots.set i none, t.size - 1⟩)
    | none => (none, t)
  | none => (none, t)

/-- Fold a list of (key, value) insertions over a table. -/
def insertList (hf : K → Nat) (t : HashTable K V) (ps : List (K × V)) :
    HashTable K V :=
  ps.foldl (fun acc p => insert hf acc p.1 p.2) t

/-- A client operation on the table. -/
inductive Op (K V : Type) where
  | ins (k : K) (v : V)
  | del (k : K)
deriving DecidableEq

/-- Apply one operation. -/
def applyOp (hf : K → Nat) (t : HashTable K V) : Op K V → HashTable K V
  | Op.ins k v => insert hf t k v
  | Op.del k => (remove hf t k).2

/-- Apply a whole operation sequence to a fresh table. -/
def applyOps (hf : K → Nat) (ops : List (Op K V)) : HashTable K V :=
  ops.foldl (applyOp hf) HashTable.new

/-- The placement probe of `insert` succeeds on key `key`: either the key is
overwritten in place, or (after the conditional growth) the empty-slot scan
finds a slot.  This is exactly the condition under which the source's
unguarded placement loop terminates. -/
def insert_ok (hf : K → Nat) (t : HashTable K V) (key : K) : Prop :=
  (find_slot hf t key).isSome = true ∨
    (findEmptyAux (growIfNeeded hf t).slots
      (hf key % (growIfNeeded hf t).slots.length)
      (growIfNeeded hf t).slots.length).isSome = true

/-- Number of forward steps (with wraparound) from index `a` to index `b` in a
cyclic array of length `n`. -/
def cycDist (a b n : Nat) : Nat := (b + n - a) % n

/-- Key stored in slot `j`, if any. -/
def keyAt (slots : Slots K V) (j : Nat) : Option K :=
  (slotAt slots j).map Prod.fst

/-- Ideal index of the key stored in slot `j` (0 for an Empty slot). -/
def idealOf (hf : K → Nat) (slots : Slots K V) (j : Nat) : Nat :=
  match keyAt slots j with
  | none => 0
  | some k => hf k % slots.length

/-- Length of the probe path from the ideal index of slot `j`'s key to `j`
(0 for an Empty slot). -/
def probeLen (hf : K → Nat) (slots : Slots K V) (j : Nat) : Nat :=
  match keyAt slots j with
  | none => 0
  | some k => cycDist (hf k % slots.length) j slots.length

/-- No two Occupied slots hold the same key. -/
def NodupKeys (slots : Slots K V) : Prop :=
  ∀ i, i < slots.length → ∀ j, j < slots.length → i ≠ j →
    keyAt slots i = keyAt slots j → keyAt slots i = none

/-- Every Occupied slot is reachable from its key's ideal index by scanning
forward (with wraparound) through Occupied slots only. -/
def ChainsOK (hf : K → Nat) (slots : Slots K V) : Prop :=
  ∀ j, j < slots.length → ∀ m, m < probeLen hf slots j →
    (slotAt slots ((idealOf hf slots j + m) % slots.length)).isSome = true

/-- The representation invariant of reachable tables: nonempty backing array,
accurate size, pairwise-distinct keys, unbroken probe chains. -/
def Inv (hf : K → Nat) (t : HashTable K V) : Prop :=
  0 < t.slots.length ∧ t.size = countSome t.slots ∧ NodupKeys t.slots ∧
    ChainsOK hf t.slots

instance (hf : K → Nat) (t : HashTable K V) : Decidable (Inv hf t) := by
  unfold Inv NodupKeys ChainsOK
  infer_instance

/-- The table associates value `v` to key `k` (some slot holds the pair). -/
def MapsTo (t : HashTable K V) (k : K) (v : V) : Prop :=
  ∃ j, slotAt t.slots j = some (k, v)

/-- The weak state invariant: accurate size, load factor at most one half,
capacity a power-of-two multiple of 16. -/
def Wf (t : HashTable K V) : Prop :=
  t.size = countSome t.slots ∧ 2 * t.size ≤ t.slots.length ∧
    ∃ e : Nat, t.slots.length = 16 * 2 ^ e

/-- Abstract effect of one insertion on an association list with distinct
keys: overwrite the binding in place if present, else append it. -/
def modelInsert (m : List (K × V)) (k : K) (v : V) : List (K × V) :=
  if ∃ p ∈ m, p.1 = k then m.map (fun p => if p.1 = k then (k, v) else p)
  else m ++ [(k, v)]

/-- Abstract effect of a sequence of insertions. -/
def modelList (m : List (K × V)) (ps : List (K × V)) : List (K × V) :=
  ps.foldl (fun acc p => modelInsert acc p.1 p.2) m

/-- The table refines the association list `m`: invariant holds, `size` is
the number of bindings, keys of `m` are distinct, and the stored pairs are
exactly the bindings of `m`. -/
def Models (hf : K → Nat) (t : HashTable K V) (m : List (K × V)) : Prop :=
  Inv hf t ∧ t.size = m.length ∧ (m.map Prod.fst).Nodup ∧
    ∀ k v, MapsTo t k v ↔ (k, v) ∈ m

/-- `Models` plus the load-factor bound and the capacity shape: the full
induction hypothesis carried along a sequence of insertions. -/
def Good (hf : K → Nat) (t : HashTable K V) (m : List (K × V)) : Prop :=
  Models hf t m ∧ 2 * t.size ≤ t.slots.length ∧
    ∃ e : Nat, t.slots.length = 16 * 2 ^ e

/-- Spec-side quantity of claim C4, following the spec's words: the distinct
keys that have been inserted and not subsequently removed, read off the
operation sequence itself (an insert adds the key if absent; a remove deletes
it). -/
def liveKeys (ops : List (Op K V)) : List K :=
  ops.foldl (fun acc op =>
    match op with
    | Op.ins k _ => if k ∈ acc then acc else acc ++ [k]
    | Op.del k => acc.erase k) []

/-! ### Cyclic distance arithmetic for the probe sequence -/

theorem cycDist_lt (a b : Nat) {n : Nat} (hn : 0 < n) : cycDist a b n < n :=
  Nat.mod_lt _ hn

theorem cycDist_eq_zero {a b n : Nat} (ha : a < n) (hb : b < n)
    (h : cycDist a b n = 0) : a = b := by
  unfold cycDist at h
  rcases Nat.lt_or_ge (b + n - a) n with hlt | hge
  · rw [Nat.mod_eq_of_lt hlt] at h
    omega
  · rw [Nat.mod_eq_sub_mod hge, Nat.mod_eq_of_lt (by omega)] at h
    omega

theorem cycDist_add {a b n : Nat} (ha : a < n) (hb : b < n) :
    (a + cycDist a b n) % n = b := by
  unfold cycDist
  rw [Nat.add_mod_mod]
  have h1 : a + (b + n - a) = b + n := by omega
  rw [h1, Nat.add_mod_right, Nat.mod_eq_of_lt hb]

theorem cycDist_offset {a m n : Nat} (ha : a < n) (hm : m < n) :
    cycDist a ((a + m) % n) n = m := by
  unfold cycDist
  rcases Nat.lt_or_ge (a + m) n with hlt | hge
  · rw [Nat.mod_eq_of_lt hlt]
    have h1 : a + m + n - a = m + n := by omega
    rw [h1, Nat.add_mod_right, Nat.mod_eq_of_lt hm]
  · have h2 : (a + m) % n = a + m - n := by
      rw [Nat.mod_eq_sub_mod hge, Nat.mod_eq_of_lt (by omega)]
    rw [h2]
    have h1 : a + m - n + n - a = m := by omega
    rw [h1, Nat.mod_eq_of_lt hm]

/-- Shifting the scan start one step forward: the slot visited after `m` more
steps is the slot the original scan visits after `m + 1` steps. -/
theorem probe_shift (a m n : Nat) : ((a + 1) % n + m) % n = (a + (m + 1)) % n := by
  rw [Nat.mod_add_mod]
  congr 1
  omega

/-! ### Basic facts about the slot array -/

theorem slotAt_some_lt {l : Slots K V} {j : Nat} {x : K × V}
    (h : slotAt l j = some x) : j < l.length := by
  induction l generalizing j with
  | nil => simp [slotAt] at h
  | cons s rest ih =>
    cases j with
    | zero => simp
    | succ j => exact Nat.succ_lt_succ (ih (by simpa [slotAt] using h))

theorem slotAt_of_le {l : Slots K V} {j : Nat} (h : l.length ≤ j) :
    slotAt l j = none := by
  induction l generalizing j with
  | nil => cases j <;> rfl
  | cons s rest ih =>
    cases j with
    | zero => simp at h
    | succ j => exact ih (by simpa using h)

theorem slotAt_set_self {l : Slots K V} {i : Nat} (h : i < l.length)
    (a : Option (K × V)) : slotAt (l.set i a) i = a := by
  induction l generalizing i with
  | nil => simp at h
  | cons s rest ih =>
    cases i with
    | zero => rfl
    | succ i => exact ih (by simpa using h)

theorem slotAt_set_ne {l : Slots K V} {i j : Nat} (h : j ≠ i)
    (a : Option (K × V)) : slotAt (l.set i a) j = slotAt l j := by
  induction l generalizing i j with
  | nil => rfl
  | cons s rest ih =>
    cases i with
    | zero =>
      cases j with
      | zero => exact absurd rfl h
      | succ j => rfl
    | succ i =>
      cases j with
      | zero => rfl
      | succ j =>
        have hji : j ≠ i := by omega
        exact ih hji

theorem slotAt_replicate (c j : Nat) :
    slotAt (List.replicate c (none : Option (K × V))) j = none := by
  induction c generalizing j with
  | zero => cases j <;> rfl
  | succ c ih =>
    cases j with
    | zero => rfl
    | succ j => exact ih j

theorem countSome_le_length (l : Slots K V) : countSome l ≤ l.length := by
  induction l with
  | nil => simp [countSome]
  | cons s rest ih => cases s <;> simp [countSome] <;> omega

theorem countSome_replicate (c : Nat) :
    countSome (List.replicate c (none : Option (K × V))) = 0 := by
  induction c with
  | zero => rfl
  | succ c ih => simpa [List.replicate, countSome] using ih

theorem countSome_set_some_of_none {l : Slots K V} {i : Nat}
    (h : slotAt l i = none) (hi : i < l.length) (p : K × V) :
    countSome (l.set i (some p)) = countSome l + 1 := by
  induction l generalizing i with
  | nil => simp at hi
  | cons s rest ih =>
    cases i with
    | zero =>
      cases s with
      | none => simp [countSome]
      | some q => simp [slotAt] at h
    | succ i =>
      have h' : slotAt rest i = none := h
      have hi' : i < rest.length := by simpa using hi
      cases s <;> simp [countSome, ih h' hi'] <;> omega

theorem countSome_set_some_of_some {l : Slots K V} {i : Nat} {q : K × V}
    (h : slotAt l i = some q) (p : K × V) :
    countSome (l.set i (some p)) = countSome l := by
  induction l generalizing i with
  | nil => simp [slotAt] at h
  | cons s rest ih =>
    cases i with
    | zero =>
      cases s with
      | none => simp [slotAt] at h
      | some r => simp [countSome]
    | succ i =>
      have h' : slotAt rest i = some q := h
      cases s <;> simp [countSome, ih h']

theorem countSome_set_none_of_some {l : Slots K V} {i : Nat} {q : K × V}
    (h : slotAt l i = some q) :
    countSome (l.set i none) + 1 = countSome l := by
  induction l generalizing i with
  | nil => simp [slotAt] at h
  | cons s rest ih =>
    cases i with
    | zero =>
      cases s with
      | none => simp [slotAt] at h
      | some r => simp [countSome]
    | succ i =>
      have h' : slotAt rest i = some q := h
      cases s <;> simp [countSome, ← ih h'] <;> omega

theorem mem_occupiedPairs {l : Slots K V} {p : K × V} :
    p ∈ occupiedPairs l ↔ ∃ j, slotAt l j = some p := by
  induction l with
  | nil =>
    simp only [occupiedPairs, List.not_mem_nil, false_iff]
    rintro ⟨j, hj⟩
    cases j <;> simp [slotAt] at hj
  | cons s rest ih =>
    cases s with
    | none =>
      simp only [occupiedPairs, ih]
      constructor
      · rintro ⟨j, hj⟩; exact ⟨j + 1, hj⟩
      · rintro ⟨j, hj⟩
        cases j with
        | zero => simp [slotAt] at hj
        | succ j => exact ⟨j, hj⟩
    | some q =>
      simp only [occupiedPairs, List.mem_cons, ih]
      constructor
      · rintro (rfl | ⟨j, hj⟩)
        · exact ⟨0, rfl⟩
        · exact ⟨j + 1, hj⟩
      · rintro ⟨j, hj⟩
        cases j with
        | zero => exact Or.inl (by simpa [slotAt] using hj.symm)
        | succ j => exact Or.inr ⟨j, hj⟩

theorem length_occupiedPairs (l : Slots K V) :
    (occupiedPairs l).length = countSome l := by
  induction l with
  | nil => rfl
  | cons s rest ih => cases s <;> simp [occupiedPairs, countSome, ih]

theorem countSome_lt_of_empty_slot {l : Slots K V}
    (h : countSome l < l.length) : ∃ j, j < l.length ∧ slotAt l j = none := by
  induction l with
  | nil => simp [countSome] at h
  | cons s rest ih =>
    cases s with
    | none => exact ⟨0, by simp, rfl⟩
    | some q =>
      have h' : countSome rest < rest.length := by
        simpa [countSome] using h
      obtain ⟨j, hj, hslot⟩ := ih h'
      exact ⟨j + 1, by simpa using Nat.succ_lt_succ hj, hslot⟩

/-! ### Soundness and completeness of the probe scans -/

/-- `find_slot`'s loop only ever returns the index of an Occupied slot whose
key equals the target. -/
theorem findSlotAux_sound {slots : Slots K V} {key : K} :
    ∀ fuel start j, findSlotAux slots key start fuel = some j →
      ∃ v, slotAt slots j = some (key, v) := by
  intro fuel
  induction fuel with
  | zero => intro start j h; simp [findSlotAux] at h
  | succ fuel ih =>
    intro start j h
    rw [findSlotAux] at h
    cases hs : slotAt slots start with
    | none => rw [hs] at h; simp at h
    | some p =>
      obtain ⟨k, v⟩ := p
      rw [hs] at h
      by_cases hk : k = key
      · simp [hk] at h
        exact ⟨v, by rw [← h, hs, hk]⟩
      · simp [hk] at h
        exact ih _ _ h

/-- If the scan from `start` meets only Occupied slots with non-matching keys
for `d` steps and the slot `d` steps ahead holds the target key, the loop
returns that slot's index. -/
theorem findSlotAux_path_some {slots : Slots K V} {key : K} :
    ∀ d fuel start, start < slots.length → d < fuel →
      (∀ m, m < d → ∃ k' v', slotAt slots ((start + m) % slots.length) =
        some (k', v') ∧ k' ≠ key) →
      (∃ v, slotAt slots ((start + d) % slots.length) = some (key, v)) →
      findSlotAux slots key start fuel = some ((start + d) % slots.length) := by
  intro d
  induction d with
  | zero =>
    intro fuel start hstart hfuel _ htarget
    obtain ⟨fuel, rfl⟩ := Nat.exists_eq_succ_of_ne_zero (Nat.pos_iff_ne_zero.mp hfuel)
    obtain ⟨v, hv⟩ := htarget
    have hidx : (start + 0) % slots.length = start := by
      simpa using Nat.mod_eq_of_lt hstart
    rw [hidx] at hv ⊢
    rw [findSlotAux, hv]
    simp
  | succ d ih =>
    intro fuel start hstart hfuel hpath htarget
    obtain ⟨f, rfl⟩ := Nat.exists_eq_succ_of_ne_zero (show fuel ≠ 0 by omega)
    obtain ⟨k', v', hs, hk⟩ := hpath 0 (Nat.zero_lt_succ d)
    have hidx : (start + 0) % slots.length = start := by
      simpa using Nat.mod_eq_of_lt hstart
    rw [hidx] at hs
    have hn : 0 < slots.length := by omega
    have hstart' : (start + 1) % slots.length < slots.length := Nat.mod_lt _ hn
    rw [findSlotAux, hs]
    simp only [hk, if_false]
    have hgoal := ih f ((start + 1) % slots.length) hstart'
      (Nat.lt_of_succ_lt_succ hfuel)
      (fun m hm => by
        rw [probe_shift]
        exact hpath (m + 1) (Nat.succ_lt_succ hm))
      (by rw [probe_shift]; exact htarget)
    rw [hgoal, probe_shift]

/-- If the scan meets only Occupied non-matching slots for `d` steps and the
slot `d` steps ahead is Empty, the loop stops with `None`. -/
theorem findSlotAux_path_none {slots : Slots K V} {key : K} :
    ∀ d fuel start, start < slots.length → d < fuel →
      (∀ m, m < d → ∃ k' v', slotAt slots ((start + m) % slots.length) =
        some (k', v') ∧ k' ≠ key) →
      slotAt slots ((start + d) % slots.length) = none →
      findSlotAux slots key start fuel = none := by
  intro d
  induction d with
  | zero =>
    intro fuel start hstart hfuel _ htarget
    obtain ⟨fuel, rfl⟩ := Nat.exists_eq_succ_of_ne_zero (Nat.pos_iff_ne_zero.mp hfuel)
    have hidx : (start + 0) % slots.length = start := by
      simpa using Nat.mod_eq_of_lt hstart
    rw [hidx] at htarget
    rw [findSlotAux, htarget]
  | succ d ih =>
    intro fuel start hstart hfuel hpath htarget
    obtain ⟨f, rfl⟩ := Nat.exists_eq_succ_of_ne_zero (show fuel ≠ 0 by omega)
    obtain ⟨k', v', hs, hk⟩ := hpath 0 (Nat.zero_lt_succ d)
    have hidx : (start + 0) % slots.length = start := by
      simpa using Nat.mod_eq_of_lt hstart
    rw [hidx] at hs
    have hn : 0 < slots.length := by omega
    rw [findSlotAux, hs]
    simp only [hk, if_false]
    exact ih f ((start + 1) % slots.length) (Nat.mod_lt _ hn)
      (Nat.lt_of_succ_lt_succ hfuel)
      (fun m hm => by
        rw [probe_shift]
        exact hpath (m + 1) (Nat.succ_lt_succ hm))
      (by rw [probe_shift]; exact htarget)

/-- If every slot the scan can visit is Occupied with a non-matching key, the
loop runs out of its wrap-around budget and returns `None`. -/
theorem findSlotAux_allmiss {slots : Slots K V} {key : K} :
    ∀ fuel start, start < slots.length →
      (∀ m, m < fuel → ∃ k' v', slotAt slots ((start + m) % slots.length) =
        some (k', v') ∧ k' ≠ key) →
      findSlotAux slots key start fuel = none := by
  intro fuel
  induction fuel with
  | zero => intro start _ _; rfl
  | succ fuel ih =>
    intro start hstart hpath
    obtain ⟨k', v', hs, hk⟩ := hpath 0 (Nat.zero_lt_succ fuel)
    have hidx : (start + 0) % slots.length = start := by
      simpa using Nat.mod_eq_of_lt hstart
    rw [hidx] at hs
    rw [findSlotAux, hs]
    simp only [hk, if_false]
    exact ih ((start + 1) % slots.length) (Nat.mod_lt _ (by omega))
      (fun m hm => by
        rw [probe_shift]
        exact hpath (m + 1) (Nat.succ_lt_succ hm))

/-- The placement loop only returns Empty in-range indices. -/
theorem findEmptyAux_sound {slots : Slots K V} :
    ∀ fuel start i, findEmptyAux slots start fuel = some i →
      slotAt slots i = none ∧ (start < slots.length → i < slots.length) := by
  intro fuel
  induction fuel with
  | zero => intro start i h; simp [findEmptyAux] at h
  | succ fuel ih =>
    intro start i h
    rw [findEmptyAux] at h
    cases hs : slotAt slots start with
    | none =>
      rw [hs] at h
      simp at h
      exact ⟨by rw [← h, hs], fun hlt => h ▸ hlt⟩
    | some p =>
      rw [hs] at h
      simp at h
      refine ⟨(ih _ _ h).1, fun hlt => (ih _ _ h).2 (Nat.mod_lt _ ?_)⟩
      omega

/-- If an Empty slot is reachable within the scan budget, the placement loop
finds the first one; all slots strictly before it on the probe path are
Occupied. -/
theorem findEmptyAux_complete {slots : Slots K V} :
    ∀ fuel start, start < slots.length →
      (∃ d, d < fuel ∧ slotAt slots ((start + d) % slots.length) = none) →
      ∃ d0, d0 < fuel ∧
        findEmptyAux slots start fuel = some ((start + d0) % slots.length) ∧
        slotAt slots ((start + d0) % slots.length) = none ∧
        ∀ m, m < d0 → (slotAt slots ((start + m) % slots.length)).isSome = true := by
  intro fuel
  induction fuel with
  | zero =>
    intro start _ h
    obtain ⟨d, hd, _⟩ := h
    omega
  | succ fuel ih =>
    intro start hstart hex
    have hidx : (start + 0) % slots.length = start := by
      simpa using Nat.mod_eq_of_lt hstart
    cases hs : slotAt slots start with
    | none =>
      refine ⟨0, Nat.zero_lt_succ fuel, ?_, ?_, ?_⟩
      · rw [findEmptyAux, hs, hidx]
      · rw [hidx]; exact hs
      · intro m hm; omega
    | some p =>
      obtain ⟨d, hd, hnone⟩ := hex
      have hd0 : d ≠ 0 := by
        intro h0
        rw [h0, hidx] at hnone
        rw [hnone] at hs
        exact Option.noConfusion hs
      obtain ⟨d1, rfl⟩ := Nat.exists_eq_succ_of_ne_zero hd0
      have hn : 0 < slots.length := by omega
      have hstart' : (start + 1) % slots.length < slots.length := Nat.mod_lt _ hn
      have hex' : ∃ d', d' < fuel ∧
          slotAt slots (((start + 1) % slots.length + d') % slots.length) = none := by
        refine ⟨d1, Nat.lt_of_succ_lt_succ hd, ?_⟩
        rw [probe_shift]
        exact hnone
      obtain ⟨d0, hd0lt, heq, hempty, hpath⟩ := ih _ hstart' hex'
      refine ⟨d0 + 1, Nat.succ_lt_succ hd0lt, ?_, ?_, ?_⟩
      · rw [findEmptyAux, hs, heq, probe_shift]
      · rw [← probe_shift]; exact hempty
      · intro m hm
        cases m with
        | zero => rw [hidx, hs]; rfl
        | succ m =>
          rw [← probe_shift]
          exact hpath m (Nat.lt_of_succ_lt_succ hm)

/-! ### Lemmas about the table invariant -/

theorem chainsOK_elim {hf : K → Nat} {slots : Slots K V} (hC : ChainsOK hf slots)
    {j : Nat} {k : K} {v : V} (hj : slotAt slots j = some (k, v)) {m : Nat}
    (hm : m < cycDist (hf k % slots.length) j slots.length) :
    (slotAt slots ((hf k % slots.length + m) % slots.length)).isSome = true := by
  have hjlt : j < slots.length := slotAt_some_lt hj
  have hkey : keyAt slots j = some k := by simp [keyAt, hj]
  have h1 := hC j hjlt m
  rw [probeLen, idealOf, hkey] at h1
  exact h1 hm

/-- With the invariant, `find_slot` finds the slot holding the target key. -/
theorem find_slot_complete {hf : K → Nat} {t : HashTable K V} (hInv : Inv hf t)
    {j : Nat} {k : K} {v : V} (hj : slotAt t.slots j = some (k, v)) :
    find_slot hf t k = some j := by
  obtain ⟨hn, _, hnd, hch⟩ := hInv
  have hjlt : j < t.slots.length := slotAt_some_lt hj
  have hideal : hf k % t.slots.length < t.slots.length := Nat.mod_lt _ hn
  have hd : (hf k % t.slots.length +
      cycDist (hf k % t.slots.length) j t.slots.length) % t.slots.length = j :=
    cycDist_add hideal hjlt
  have hdlt : cycDist (hf k % t.slots.length) j t.slots.length < t.slots.length :=
    cycDist_lt _ _ hn
  have hpath : ∀ m, m < cycDist (hf k % t.slots.length) j t.slots.length →
      ∃ k' v', slotAt t.slots ((hf k % t.slots.length + m) % t.slots.length) =
        some (k', v') ∧ k' ≠ k := by
    intro m hm
    have hiss := chainsOK_elim hch hj hm
    cases hsm : slotAt t.slots ((hf k % t.slots.length + m) % t.slots.length) with
    | none => rw [hsm] at hiss; simp at hiss
    | some p =>
      obtain ⟨k', v'⟩ := p
      refine ⟨k', v', rfl, ?_⟩
      intro hkk
      have hne : (hf k % t.slots.length + m) % t.slots.length ≠ j := by
        intro heq
        have hco := cycDist_offset (a := hf k % t.slots.length) (m := m)
          (n := t.slots.length) hideal (by omega)
        rw [heq] at hco
        omega
      have hk1 : keyAt t.slots ((hf k % t.slots.length + m) % t.slots.length) =
          some k := by
        unfold keyAt
        rw [hsm, hkk]
        rfl
      have hk2 : keyAt t.slots j = some k := by simp [keyAt, hj]
      have hcon := hnd _ (Nat.mod_lt _ hn) j hjlt hne (by rw [hk1, hk2])
      rw [hk1] at hcon
      exact Option.noConfusion hcon
  have hres := findSlotAux_path_some
    (cycDist (hf k % t.slots.length) j t.slots.length) t.slots.length
    (hf k % t.slots.length) hideal hdlt hpath ⟨v, by rw [hd]; exact hj⟩
  unfold find_slot
  rw [hres, hd]

/-- A key held by no slot is never found by the probe search. -/
theorem find_slot_eq_none {hf : K → Nat} {t : HashTable K V} {k : K}
    (habs : ∀ v, ¬ MapsTo t k v) : find_slot hf t k = none := by
  cases h : find_slot hf t k with
  | none => rfl
  | some j =>
    obtain ⟨v, hv⟩ := findSlotAux_sound _ _ _ h
    exact absurd ⟨j, hv⟩ (habs v)

/-- With the invariant, two bindings of the same key agree. -/
theorem mapsTo_unique {hf : K → Nat} {t : HashTable K V} (hInv : Inv hf t)
    {k : K} {v w : V} (hv : MapsTo t k v) (hw : MapsTo t k w) : v = w := by
  obtain ⟨j1, h1⟩ := hv
  obtain ⟨j2, h2⟩ := hw
  rcases Classical.em (j1 = j2) with rfl | hne
  · rw [h1] at h2
    simp at h2
    exact h2
  · obtain ⟨_, _, hnd, _⟩ := hInv
    have hk1 : keyAt t.slots j1 = some k := by simp [keyAt, h1]
    have hk2 : keyAt t.slots j2 = some k := by simp [keyAt, h2]
    have := hnd j1 (slotAt_some_lt h1) j2 (slotAt_some_lt h2) hne
      (by rw [hk1, hk2])
    rw [hk1] at this
    exact Option.noConfusion this

/-- With the invariant, `get` returns the stored value of a present key. -/
theorem get_some_of_mapsTo {hf : K → Nat} {t : HashTable K V} (hInv : Inv hf t)
    {k : K} {v : V} (hv : MapsTo t k v) : get hf t k = some v := by
  obtain ⟨j, hj⟩ := hv
  rw [get, find_slot_complete hInv hj]
  simp [hj]

/-- `get` returns `none` on any key held by no slot (no invariant needed). -/
theorem get_none_of_absent {hf : K → Nat} {t : HashTable K V} {k : K}
    (habs : ∀ v, ¬ MapsTo t k v) : get hf t k = none := by
  rw [get, find_slot_eq_none habs]

/-! ### Effect of a single non-growing insertion -/

theorem keyAt_eq_some {l : Slots K V} {x : Nat} {k : K}
    (h : keyAt l x = some k) : ∃ w, slotAt l x = some (k, w) := by
  unfold keyAt at h
  cases hs : slotAt l x with
  | none => rw [hs] at h; exact Option.noConfusion h
  | some p =>
    rw [hs] at h
    obtain ⟨k1, w⟩ := p
    have hk : k1 = k := by simpa using h
    exact ⟨w, by rw [hk]⟩

theorem keyAt_set_ne {l : Slots K V} {i x : Nat} (h : x ≠ i)
    (a : Option (K × V)) : keyAt (l.set i a) x = keyAt l x := by
  unfold keyAt
  rw [slotAt_set_ne h]

theorem keyAt_set_self {l : Slots K V} {i : Nat} (h : i < l.length)
    (p : K × V) : keyAt (l.set i (some p)) i = some p.1 := by
  unfold keyAt
  rw [slotAt_set_self h]
  rfl

theorem isSome_set_some {l : Slots K V} {i x : Nat} (hi : i < l.length)
    (p : K × V) (h : (slotAt l x).isSome = true) :
    (slotAt (l.set i (some p)) x).isSome = true := by
  rcases Classical.em (x = i) with rfl | hne
  · rw [slotAt_set_self hi]; rfl
  · rw [slotAt_set_ne hne]; exact h

/-- Introduction form of `ChainsOK` phrased on the stored pairs. -/
theorem chainsOK_intro {hf : K → Nat} {slots : Slots K V}
    (h : ∀ j k w, slotAt slots j = some (k, w) →
      ∀ m, m < cycDist (hf k % slots.length) j slots.length →
        (slotAt slots ((hf k % slots.length + m) % slots.length)).isSome = true) :
    ChainsOK hf slots := by
  intro j hj m hm
  cases hk : keyAt slots j with
  | none => simp [probeLen, hk] at hm
  | some k =>
    obtain ⟨w, hw⟩ := keyAt_eq_some hk
    rw [probeLen, hk] at hm
    rw [idealOf, hk]
    exact h j k w hw m hm

/-- Inserting an absent key into a table with a free slot: the invariant is
preserved, the size grows by one, exactly the binding (k, v) is added, and
the placement scan succeeds. -/
theorem insertNoResize_spec {hf : K → Nat} {t : HashTable K V} {k : K} {v : V}
    (hInv : Inv hf t) (habs : ∀ w, ¬ MapsTo t k w)
    (hroom : countSome t.slots < t.slots.length) :
    Inv hf (insertNoResize hf t k v) ∧
    (insertNoResize hf t k v).slots.length = t.slots.length ∧
    (insertNoResize hf t k v).size = t.size + 1 ∧
    (∀ k' v', MapsTo (insertNoResize hf t k v) k' v' ↔
      ((k' = k ∧ v' = v) ∨ MapsTo t k' v')) ∧
    (findEmptyAux t.slots (hf k % t.slots.length) t.slots.length).isSome = true := by
  obtain ⟨hn, hsz, hnd, hch⟩ := hInv
  have hfs : find_slot hf t k = none := find_slot_eq_none habs
  have hstart : hf k % t.slots.length < t.slots.length := Nat.mod_lt _ hn
  obtain ⟨j, hjlt, hjnone⟩ := countSome_lt_of_empty_slot hroom
  have hex : ∃ d, d < t.slots.length ∧
      slotAt t.slots ((hf k % t.slots.length + d) % t.slots.length) = none := by
    refine ⟨cycDist (hf k % t.slots.length) j t.slots.length,
      cycDist_lt _ _ hn, ?_⟩
    rw [cycDist_add hstart hjlt]
    exact hjnone
  obtain ⟨d0, hd0, heq, hempty, hpath⟩ :=
    findEmptyAux_complete t.slots.length (hf k % t.slots.length) hstart hex
  have hilt : (hf k % t.slots.length + d0) % t.slots.length < t.slots.length :=
    Nat.mod_lt _ hn
  have hres : insertNoResize hf t k v =
      ⟨t.slots.set ((hf k % t.slots.length + d0) % t.slots.length)
        (some (k, v)), t.size + 1⟩ := by
    rw [insertNoResize, hfs, heq]
  rw [hres]
  set i := (hf k % t.slots.length + d0) % t.slots.length with hidef
  have hlen' : (t.slots.set i (some (k, v))).length = t.slots.length :=
    List.length_set t.slots i _
  have hkAt : ∀ x, x ≠ i →
      keyAt (t.slots.set i (some (k, v))) x = keyAt t.slots x :=
    fun x hx => keyAt_set_ne hx _
  have hkAti : keyAt (t.slots.set i (some (k, v))) i = some k :=
    keyAt_set_self hilt (k, v)
  refine ⟨⟨?_, ?_, ?_, ?_⟩, hlen', rfl, ?_, by rw [heq]; rfl⟩
  · simpa [hlen'] using hn
  · show t.size + 1 = countSome (t.slots.set i (some (k, v)))
    rw [countSome_set_some_of_none hempty hilt, hsz]
  · -- NodupKeys
    intro i1 hi1 j1 hj1 hne hkey
    rw [hlen'] at hi1 hj1
    rcases Classical.em (i1 = i) with rfl | hne1
    · rcases Classical.em (j1 = i) with rfl | hne2
      · exact absurd rfl hne
      · rw [hkAti, hkAt j1 hne2] at hkey
        obtain ⟨w, hw⟩ := keyAt_eq_some hkey.symm
        exact absurd ⟨j1, hw⟩ (habs w)
    · rcases Classical.em (j1 = i) with rfl | hne2
      · rw [hkAt i1 hne1, hkAti] at hkey
        obtain ⟨w, hw⟩ := keyAt_eq_some hkey
        exact absurd ⟨i1, hw⟩ (habs w)
      · rw [hkAt i1 hne1, hkAt j1 hne2] at hkey
        rw [hkAt i1 hne1]
        exact hnd i1 hi1 j1 hj1 hne hkey
  · -- ChainsOK
    apply chainsOK_intro
    intro j1 k1 w hslot m hm
    rw [hlen'] at hm ⊢
    rcases Classical.em (j1 = i) with rfl | hne1
    · rw [slotAt_set_self hilt] at hslot
      have hk1 : k = k1 := by simpa using congrArg (Option.map Prod.fst) hslot
      subst hk1
      have hdist : cycDist (hf k % t.slots.length) i t.slots.length = d0 := by
        rw [hidef]
        exact cycDist_offset hstart (by omega)
      rw [hdist] at hm
      exact isSome_set_some hilt _ (hpath m hm)
    · rw [slotAt_set_ne hne1] at hslot
      exact isSome_set_some hilt _ (chainsOK_elim hch hslot hm)
  · -- contents
    intro k' v'
    constructor
    · rintro ⟨j1, hj1⟩
      rcases Classical.em (j1 = i) with rfl | hne1
      · rw [slotAt_set_self hilt] at hj1
        simp at hj1
        exact Or.inl ⟨hj1.1.symm, hj1.2.symm⟩
      · rw [slotAt_set_ne hne1] at hj1
        exact Or.inr ⟨j1, hj1⟩
    · rintro (⟨rfl, rfl⟩ | ⟨j1, hj1⟩)
      · exact ⟨i, slotAt_set_self hilt _⟩
      · have hne1 : j1 ≠ i := by
          intro hji
          rw [hji, hempty] at hj1
          exact Option.noConfusion hj1
        exact ⟨j1, by rw [slotAt_set_ne hne1]; exact hj1⟩

/-! ### Unconditional bookkeeping of a non-growing insertion -/

theorem length_insertNoResize (hf : K → Nat) (t : HashTable K V) (k : K) (v : V) :
    (insertNoResize hf t k v).slots.length = t.slots.length := by
  rw [insertNoResize]
  cases h1 : find_slot hf t k with
  | some i => simp
  | none =>
    cases h2 : findEmptyAux t.slots (hf k % t.slots.length) t.slots.length with
    | some i => simp
    | none => rfl

theorem size_insertNoResize_le (hf : K → Nat) (t : HashTable K V) (k : K) (v : V) :
    (insertNoResize hf t k v).size ≤ t.size + 1 := by
  rw [insertNoResize]
  cases h1 : find_slot hf t k with
  | some i => exact Nat.le_succ _
  | none =>
    cases h2 : findEmptyAux t.slots (hf k % t.slots.length) t.slots.length with
    | some i => exact Nat.le_refl _
    | none => exact Nat.le_succ _

/-- `size` stays equal to the number of Occupied slots across a non-growing
insertion, from any state satisfying that equation. -/
theorem sizeCount_insertNoResize {hf : K → Nat} {t : HashTable K V}
    (h : t.size = countSome t.slots) (k : K) (v : V) :
    (insertNoResize hf t k v).size = countSome (insertNoResize hf t k v).slots := by
  rw [insertNoResize]
  cases h1 : find_slot hf t k with
  | some i =>
    obtain ⟨w, hw⟩ := findSlotAux_sound _ _ _ h1
    simpa [countSome_set_some_of_some hw] using h
  | none =>
    cases h2 : findEmptyAux t.slots (hf k % t.slots.length) t.slots.length with
    | some i =>
      have hlen : 0 < t.slots.length := by
        rcases Nat.eq_zero_or_pos t.slots.length with h0 | h0
        · rw [h0] at h2; simp [findEmptyAux] at h2
        · exact h0
      have hsound := findEmptyAux_sound _ _ _ h2
      have hilt : i < t.slots.length := hsound.2 (Nat.mod_lt _ hlen)
      simpa [countSome_set_some_of_none hsound.1 hilt] using h
    | none => exact h

/-! ### The fold of non-growing insertions used by `resize` -/

theorem reinsertAll_spec {hf : K → Nat} :
    ∀ (ps : List (K × V)) (t : HashTable K V), Inv hf t →
      (ps.map Prod.fst).Nodup →
      (∀ p, p ∈ ps → ∀ w, ¬ MapsTo t p.1 w) →
      countSome t.slots + ps.length ≤ t.slots.length →
      Inv hf (reinsertAll hf t ps) ∧
      (reinsertAll hf t ps).slots.length = t.slots.length ∧
      (reinsertAll hf t ps).size = t.size + ps.length ∧
      (∀ k v, MapsTo (reinsertAll hf t ps) k v ↔ (MapsTo t k v ∨ (k, v) ∈ ps)) := by
  intro ps
  induction ps with
  | nil =>
    intro t hInv _ _ _
    refine ⟨hInv, rfl, rfl, fun k v => ?_⟩
    simp [reinsertAll]
  | cons p rest ih =>
    intro t hInv hnd habs hroom
    obtain ⟨k0, v0⟩ := p
    have habs0 : ∀ w, ¬ MapsTo t k0 w := fun w => habs (k0, v0) (by simp) w
    have hroom0 : countSome t.slots < t.slots.length := by
      have := hroom
      simp only [List.length_cons] at this
      omega
    obtain ⟨hInv1, hlen1, hsize1, hmem1, _⟩ :=
      insertNoResize_spec hInv habs0 hroom0 (v := v0)
    have hcount1 : countSome (insertNoResize hf t k0 v0).slots =
        countSome t.slots + 1 := by
      have h1 := hInv1.2.1
      rw [hsize1, hInv.2.1] at h1
      omega
    have hnd2 : (∀ x : V, (k0, x) ∉ rest) ∧ (rest.map Prod.fst).Nodup := by
      simpa using hnd
    have hnd' : (rest.map Prod.fst).Nodup := hnd2.2
    have hk0notin : k0 ∉ rest.map Prod.fst := by
      intro hmem
      obtain ⟨q, hq, hq1⟩ := List.mem_map.mp hmem
      exact hnd2.1 q.2 (by rw [← hq1]; simpa using hq)
    have habs' : ∀ q, q ∈ rest → ∀ w, ¬ MapsTo (insertNoResize hf t k0 v0) q.1 w := by
      intro q hq w hmaps
      rcases (hmem1 q.1 w).mp hmaps with ⟨hq1, _⟩ | hold
      · exact hk0notin (by rw [← hq1]; exact List.mem_map_of_mem Prod.fst hq)
      · exact habs q (List.mem_cons_of_mem _ hq) w hold
    have hroom' : countSome (insertNoResize hf t k0 v0).slots + rest.length ≤
        (insertNoResize hf t k0 v0).slots.length := by
      rw [hcount1, hlen1]
      simp only [List.length_cons] at hroom
      omega
    have hstep : reinsertAll hf t ((k0, v0) :: rest) =
        reinsertAll hf (insertNoResize hf t k0 v0) rest := rfl
    obtain ⟨hInv2, hlen2, hsize2, hmem2⟩ := ih _ hInv1 hnd' habs' hroom'
    rw [hstep]
    refine ⟨hInv2, by rw [hlen2, hlen1], by rw [hsize2, hsize1]; simp; omega,
      fun k v => ?_⟩
    rw [hmem2 k v]
    constructor
    · rintro (hmaps | hin)
      · rcases (hmem1 k v).mp hmaps with ⟨rfl, rfl⟩ | hold
        · exact Or.inr (by simp)
        · exact Or.inl hold
      · exact Or.inr (List.mem_cons_of_mem _ hin)
    · rintro (hold | hin)
      · exact Or.inl ((hmem1 k v).mpr (Or.inr hold))
      · rcases List.mem_cons.mp hin with heq | hin'
        · have hkv : k = k0 ∧ v = v0 := by simpa using heq
          exact Or.inl ((hmem1 k v).mpr (Or.inl hkv))
        · exact Or.inr hin'

/-- Keys of the occupied pairs are pairwise distinct when the table's slots
hold pairwise distinct keys. -/
theorem nodup_keys_occupiedPairs {slots : Slots K V} (hnd : NodupKeys slots) :
    ((occupiedPairs slots).map Prod.fst).Nodup := by
  induction slots with
  | nil => simp [occupiedPairs]
  | cons s rest ih =>
    have hndrest : NodupKeys rest := by
      intro i hi j hj hne hkey
      have := hnd (i + 1) (by simpa using Nat.succ_lt_succ hi)
        (j + 1) (by simpa using Nat.succ_lt_succ hj) (by omega) hkey
      exact this
    cases s with
    | none => simpa [occupiedPairs] using ih hndrest
    | some p =>
      obtain ⟨k0, v0⟩ := p
      simp only [occupiedPairs, List.map_cons, List.nodup_cons]
      refine ⟨?_, ih hndrest⟩
      intro hmem
      obtain ⟨q, hq, hq1⟩ := List.mem_map.mp hmem
      obtain ⟨j, hj⟩ := mem_occupiedPairs.mp hq
      have hk0 : keyAt (some (k0, v0) :: rest) 0 = some k0 := rfl
      have hkj : keyAt (some (k0, v0) :: rest) (j + 1) = some k0 := by
        unfold keyAt
        show (slotAt rest j).map Prod.fst = some k0
        rw [hj]
        show some q.1 = some k0
        rw [hq1]
      have := hnd 0 (by simp) (j + 1)
        (by simpa using Nat.succ_lt_succ (slotAt_some_lt hj)) (by omega)
        (by rw [hk0, hkj])
      rw [hk0] at this
      exact Option.noConfusion this

/-- `resize` preserves the invariant, doubles the capacity, preserves the
size, and preserves the contents. -/
theorem resize_spec {hf : K → Nat} {t : HashTable K V} (hInv : Inv hf t) :
    Inv hf (resize hf t) ∧
    (resize hf t).slots.length = 2 * t.slots.length ∧
    (resize hf t).size = t.size ∧
    (∀ k v, MapsTo (resize hf t) k v ↔ MapsTo t k v) := by
  obtain ⟨hn, hsz, hnd, hch⟩ := hInv
  have hlen0 : (List.replicate (t.slots.length * 2) (none : Option (K × V))).length =
      t.slots.length * 2 := List.length_replicate _ _
  have hInv0 : Inv hf (⟨List.replicate (t.slots.length * 2) none, 0⟩ :
      HashTable K V) := by
    refine ⟨by simpa [hlen0] using (by omega : 0 < t.slots.length * 2),
      by simp [countSome_replicate], ?_, ?_⟩
    · intro i hi j hj hne hkey
      show keyAt (List.replicate (t.slots.length * 2) none) i = none
      unfold keyAt
      rw [slotAt_replicate]
      rfl
    · apply chainsOK_intro
      intro j k w hslot m hm
      rw [slotAt_replicate] at hslot
      exact Option.noConfusion hslot
  have habs0 : ∀ p, p ∈ occupiedPairs t.slots → ∀ w,
      ¬ MapsTo (⟨List.replicate (t.slots.length * 2) none, 0⟩ : HashTable K V)
        p.1 w := by
    rintro p hp w ⟨j, hj⟩
    rw [slotAt_replicate] at hj
    exact Option.noConfusion hj
  have hroom0 : countSome (List.replicate (t.slots.length * 2)
      (none : Option (K × V))) + (occupiedPairs t.slots).length ≤
      (List.replicate (t.slots.length * 2) (none : Option (K × V))).length := by
    rw [countSome_replicate, length_occupiedPairs, hlen0]
    have := countSome_le_length t.slots
    omega
  obtain ⟨hInv1, hlen1, hsize1, hmem1⟩ := reinsertAll_spec (occupiedPairs t.slots)
    _ hInv0 (nodup_keys_occupiedPairs hnd) habs0 hroom0
  have hres : resize hf t = reinsertAll hf
      ⟨List.replicate (t.slots.length * 2) none, 0⟩ (occupiedPairs t.slots) := rfl
  rw [hres]
  refine ⟨hInv1, by rw [hlen1, hlen0]; omega, ?_, fun k v => ?_⟩
  · rw [hsize1, length_occupiedPairs, hsz]
    simp
  · rw [hmem1 k v]
    constructor
    · rintro (⟨j, hj⟩ | hin)
      · rw [slotAt_replicate] at hj
        exact Option.noConfusion hj
      · obtain ⟨j, hj⟩ := mem_occupiedPairs.mp hin
        exact ⟨j, hj⟩
    · rintro ⟨j, hj⟩
      exact Or.inr (mem_occupiedPairs.mpr ⟨j, hj⟩)

/-! ### Overwriting a found key keeps it findable at the same index -/

theorem findSlotAux_set_same {slots : Slots K V} {key : K} (v : V) :
    ∀ fuel start i, findSlotAux slots key start fuel = some i →
      findSlotAux (slots.set i (some (key, v))) key start fuel = some i := by
  intro fuel
  induction fuel with
  | zero => intro start i h; simp [findSlotAux] at h
  | succ fuel ih =>
    intro start i h
    rw [findSlotAux] at h
    cases hs : slotAt slots start with
    | none => rw [hs] at h; simp at h
    | some p =>
      obtain ⟨k', w⟩ := p
      rw [hs] at h
      by_cases hk : k' = key
      · simp only [hk, if_true] at h
        have hstart : start = i := by simpa using h
        subst hstart
        have hlt : start < slots.length := slotAt_some_lt hs
        rw [findSlotAux, slotAt_set_self hlt]
        simp
      · simp only [hk, if_false] at h
        obtain ⟨w0, hw0⟩ := findSlotAux_sound _ _ _ h
        have hne : start ≠ i := by
          intro heq
          rw [heq, hw0] at hs
          have hkk : key = k' ∧ w0 = w := by simpa using hs
          exact hk hkk.1.symm
        rw [findSlotAux, slotAt_set_ne hne]
        rw [hs]
        simp only [hk, if_false, List.length_set]
        exact ih _ _ h

/-- After overwriting the slot `find_slot` found for `k`, the probe search
still finds `k` at the same index. -/
theorem find_slot_overwrite {hf : K → Nat} {t : HashTable K V} {k : K} {i : Nat}
    (h : find_slot hf t k = some i) (v : V) :
    find_slot hf ⟨t.slots.set i (some (k, v)), t.size⟩ k = some i := by
  unfold find_slot at h ⊢
  simp only [List.length_set]
  exact findSlotAux_set_same v _ _ _ h

/-! ### Branch equations for `insert` and `remove` -/

theorem insert_found_eq {hf : K → Nat} {t : HashTable K V} {k : K} {i : Nat}
    (h1 : find_slot hf t k = some i) (v : V) :
    insert hf t k v = ⟨t.slots.set i (some (k, v)), t.size⟩ := by
  rw [insert, h1]

theorem insert_none_eq {hf : K → Nat} {t : HashTable K V} {k : K}
    (h1 : find_slot hf t k = none) (v : V) :
    insert hf t k v =
      match findEmptyAux (growIfNeeded hf t).slots
          (hf k % (growIfNeeded hf t).slots.length)
          (growIfNeeded hf t).slots.length with
      | some i => ⟨(growIfNeeded hf t).slots.set i (some (k, v)),
          (growIfNeeded hf t).size + 1⟩
      | none => growIfNeeded hf t := by
  rw [insert, h1]

theorem remove_found_eq {hf : K → Nat} {t : HashTable K V} {k : K} {i : Nat}
    (h1 : find_slot hf t k = some i) :
    remove hf t k =
      match slotAt t.slots i with
      | some (_, v) => (some v, ⟨t.slots.set i none, t.size - 1⟩)
      | none => (none, t) := by
  rw [remove, h1]

theorem remove_none_eq {hf : K → Nat} {t : HashTable K V} {k : K}
    (h1 : find_slot hf t k = none) : remove hf t k = (none, t) := by
  rw [remove, h1]

/-! ### Size accounting that holds from every state -/

theorem length_reinsertAll (hf : K → Nat) :
    ∀ (ps : List (K × V)) (t : HashTable K V),
      (reinsertAll hf t ps).slots.length = t.slots.length := by
  intro ps
  induction ps with
  | nil => intro t; rfl
  | cons p rest ih =>
    intro t
    have hstep : reinsertAll hf t (p :: rest) =
        reinsertAll hf (insertNoResize hf t p.1 p.2) rest := rfl
    rw [hstep, ih, length_insertNoResize]

theorem size_reinsertAll_le (hf : K → Nat) :
    ∀ (ps : List (K × V)) (t : HashTable K V),
      (reinsertAll hf t ps).size ≤ t.size + ps.length := by
  intro ps
  induction ps with
  | nil => intro t; simp [reinsertAll]
  | cons p rest ih =>
    intro t
    have hstep : reinsertAll hf t (p :: rest) =
        reinsertAll hf (insertNoResize hf t p.1 p.2) rest := rfl
    rw [hstep]
    calc (reinsertAll hf (insertNoResize hf t p.1 p.2) rest).size
        ≤ (insertNoResize hf t p.1 p.2).size + rest.length := ih _
      _ ≤ t.size + 1 + rest.length :=
          Nat.add_le_add_right (size_insertNoResize_le hf t p.1 p.2) _
      _ = t.size + (p :: rest).length := by simp; omega

theorem sizeCount_reinsertAll (hf : K → Nat) :
    ∀ (ps : List (K × V)) (t : HashTable K V), t.size = countSome t.slots →
      (reinsertAll hf t ps).size = countSome (reinsertAll hf t ps).slots := by
  intro ps
  induction ps with
  | nil => intro t h; exact h
  | cons p rest ih =>
    intro t h
    exact ih (insertNoResize hf t p.1 p.2) (sizeCount_insertNoResize h p.1 p.2)

theorem sizeCount_resize (hf : K → Nat) (t : HashTable K V) :
    (resize hf t).size = countSome (resize hf t).slots := by
  apply sizeCount_reinsertAll
  show 0 = countSome (List.replicate (t.slots.length * 2) none)
  rw [countSome_replicate]

theorem length_resize (hf : K → Nat) (t : HashTable K V) :
    (resize hf t).slots.length = t.slots.length * 2 := by
  unfold resize
  rw [length_reinsertAll]
  exact List.length_replicate _ _

theorem size_resize_le (hf : K → Nat) (t : HashTable K V) :
    (resize hf t).size ≤ countSome t.slots := by
  unfold resize
  calc (reinsertAll hf ⟨List.replicate (t.slots.length * 2) none, 0⟩
      (occupiedPairs t.slots)).size
      ≤ 0 + (occupiedPairs t.slots).length := size_reinsertAll_le hf _ _
    _ = countSome t.slots := by rw [Nat.zero_add, length_occupiedPairs]

theorem wf_new : Wf (HashTable.new : HashTable K V) := by
  refine ⟨?_, ?_, 0, ?_⟩
  · show 0 = countSome (List.replicate INITIAL_CAPACITY none)
    rw [countSome_replicate]
  · show 2 * 0 ≤ (List.replicate INITIAL_CAPACITY (none : Option (K × V))).length
    simp
  · show (List.replicate INITIAL_CAPACITY (none : Option (K × V))).length = 16 * 2 ^ 0
    simp [INITIAL_CAPACITY]

theorem wf_growIfNeeded {hf : K → Nat} {t : HashTable K V} (h : Wf t) :
    Wf (growIfNeeded hf t) ∧
      (growIfNeeded hf t).size ≤ t.size ∧
      2 * ((growIfNeeded hf t).size + 1) ≤ (growIfNeeded hf t).slots.length := by
  obtain ⟨hsz, hload, e, hshape⟩ := h
  have hlen16 : 16 ≤ t.slots.length := by
    rw [hshape]
    have : 1 ≤ 2 ^ e := Nat.one_le_two_pow
    omega
  unfold growIfNeeded
  by_cases htr : t.slots.length ≤ t.size * 2
  · rw [if_pos htr]
    have h1 := sizeCount_resize hf t
    have h2 := length_resize hf t
    have h3 := size_resize_le hf t
    rw [← hsz] at h3
    refine ⟨⟨h1, by omega, e + 1, by rw [h2, hshape]; ring⟩, h3, by omega⟩
  · rw [if_neg htr]
    have heven : t.slots.length = 2 * (8 * 2 ^ e) := by rw [hshape]; ring
    exact ⟨⟨hsz, hload, e, hshape⟩, Nat.le_refl _, by omega⟩

/-- Every insertion, from every weakly well-formed state, preserves the weak
invariant: this is the load-factor discipline of the source. -/
theorem wf_insert {hf : K → Nat} {t : HashTable K V} (h : Wf t) (k : K) (v : V) :
    Wf (insert hf t k v) := by
  obtain ⟨hsz, hload, e, hshape⟩ := h
  cases h1 : find_slot hf t k with
  | some i =>
    rw [insert_found_eq h1]
    obtain ⟨w, hw⟩ := findSlotAux_sound _ _ _ h1
    refine ⟨?_, ?_, e, ?_⟩
    · show t.size = countSome (t.slots.set i (some (k, v)))
      rw [countSome_set_some_of_some hw]
      exact hsz
    · show 2 * t.size ≤ (t.slots.set i (some (k, v))).length
      rw [List.length_set]
      exact hload
    · show (t.slots.set i (some (k, v))).length = 16 * 2 ^ e
      rw [List.length_set]
      exact hshape
  | none =>
    rw [insert_none_eq h1]
    obtain ⟨⟨hsz1, hload1, e1, hshape1⟩, hle1, hnext1⟩ :=
      @wf_growIfNeeded K V _ hf t ⟨hsz, hload, e, hshape⟩
    cases h2 : findEmptyAux (growIfNeeded hf t).slots
        (hf k % (growIfNeeded hf t).slots.length)
        (growIfNeeded hf t).slots.length with
    | some i =>
      have hlen1 : 0 < (growIfNeeded hf t).slots.length := by
        rw [hshape1]
        have : 1 ≤ 2 ^ e1 := Nat.one_le_two_pow
        omega
      have hsound := findEmptyAux_sound _ _ _ h2
      have hilt : i < (growIfNeeded hf t).slots.length :=
        hsound.2 (Nat.mod_lt _ hlen1)
      refine ⟨?_, ?_, e1, ?_⟩
      · show (growIfNeeded hf t).size + 1 =
          countSome ((growIfNeeded hf t).slots.set i (some (k, v)))
        rw [countSome_set_some_of_none hsound.1 hilt, hsz1]
      · show 2 * ((growIfNeeded hf t).size + 1) ≤
          ((growIfNeeded hf t).slots.set i (some (k, v))).length
        rw [List.length_set]
        exact hnext1
      · show ((growIfNeeded hf t).slots.set i (some (k, v))).length = 16 * 2 ^ e1
        rw [List.length_set]
        exact hshape1
    | none => exact ⟨hsz1, hload1, e1, hshape1⟩

/-- Every removal, from every weakly well-formed state, preserves the weak
invariant. -/
theorem wf_remove {hf : K → Nat} {t : HashTable K V} (h : Wf t) (k : K) :
    Wf (remove hf t k).2 := by
  obtain ⟨hsz, hload, e, hshape⟩ := h
  cases h1 : find_slot hf t k with
  | some i =>
    rw [remove_found_eq h1]
    cases h2 : slotAt t.slots i with
    | none => exact ⟨hsz, hload, e, hshape⟩
    | some p =>
      obtain ⟨k0, v0⟩ := p
      have hcount := countSome_set_none_of_some h2
      refine ⟨?_, ?_, e, ?_⟩
      · show t.size - 1 = countSome (t.slots.set i none)
        omega
      · show 2 * (t.size - 1) ≤ (t.slots.set i none).length
        rw [List.length_set]
        omega
      · show (t.slots.set i none).length = 16 * 2 ^ e
        rw [List.length_set]
        exact hshape
  | none =>
    rw [remove_none_eq h1]
    exact ⟨hsz, hload, e, hshape⟩

theorem wf_applyOps (hf : K → Nat) (ops : List (Op K V)) :
    Wf (applyOps hf ops) := by
  suffices h : ∀ (ops : List (Op K V)) (t : HashTable K V), Wf t →
      Wf (ops.foldl (applyOp hf) t) by
    exact h ops HashTable.new wf_new
  intro ops
  induction ops with
  | nil => intro t ht; exact ht
  | cons op rest ih =>
    intro t ht
    show Wf (rest.foldl (applyOp hf) (applyOp hf t op))
    apply ih
    cases op with
    | ins k v => exact wf_insert ht k v
    | del k => exact wf_remove ht k

/-! ### Lemmas about the association-list model -/

theorem mem_modelInsert_self (m : List (K × V)) (k : K) (v : V) :
    (k, v) ∈ modelInsert m k v := by
  rw [modelInsert]
  by_cases h : ∃ p ∈ m, p.1 = k
  · rw [if_pos h]
    obtain ⟨p, hp, hp1⟩ := h
    exact List.mem_map.mpr ⟨p, hp, by rw [if_pos hp1]⟩
  · rw [if_neg h]
    simp

theorem mem_modelInsert_ne {k' k : K} (hne : k' ≠ k) (m : List (K × V))
    (v : V) (v' : V) : (k', v') ∈ modelInsert m k v ↔ (k', v') ∈ m := by
  rw [modelInsert]
  by_cases h : ∃ p ∈ m, p.1 = k
  · rw [if_pos h]
    constructor
    · intro hmem
      obtain ⟨p, hp, hfp⟩ := List.mem_map.mp hmem
      by_cases hp1 : p.1 = k
      · rw [if_pos hp1] at hfp
        exact absurd (congrArg Prod.fst hfp).symm (by simpa using hne)
      · rw [if_neg hp1] at hfp
        rw [← hfp]
        exact hp
    · intro hmem
      refine List.mem_map.mpr ⟨(k', v'), hmem, ?_⟩
      rw [if_neg (by simpa using hne)]
  · rw [if_neg h]
    simp only [List.mem_append, List.mem_singleton]
    constructor
    · rintro (hmem | heq)
      · exact hmem
      · exact absurd (by simpa using congrArg Prod.fst heq) hne
    · exact Or.inl

theorem mem_modelInsert_key {m : List (K × V)} {k : K} {v v' : V}
    (h : (k, v') ∈ modelInsert m k v) : v' = v := by
  rw [modelInsert] at h
  by_cases hex : ∃ p ∈ m, p.1 = k
  · rw [if_pos hex] at h
    obtain ⟨p, hp, hfp⟩ := List.mem_map.mp h
    by_cases hp1 : p.1 = k
    · rw [if_pos hp1] at hfp
      simpa using (congrArg Prod.snd hfp).symm
    · rw [if_neg hp1] at hfp
      exact absurd (by rw [hfp] : p.1 = k) hp1
  · rw [if_neg hex] at h
    rcases List.mem_append.mp h with hmem | heq
    · exact absurd ⟨(k, v'), hmem, rfl⟩ hex
    · simpa using (List.mem_singleton.mp heq)

theorem keys_modelInsert_replace {m : List (K × V)} {k : K}
    (h : ∃ p ∈ m, p.1 = k) (v : V) :
    (modelInsert m k v).map Prod.fst = m.map Prod.fst := by
  rw [modelInsert, if_pos h, List.map_map]
  apply List.map_congr_left
  intro p _
  by_cases hp1 : p.1 = k
  · simp [hp1]
  · simp [hp1]

theorem keys_nodup_modelInsert {m : List (K × V)}
    (hnd : (m.map Prod.fst).Nodup) (k : K) (v : V) :
    ((modelInsert m k v).map Prod.fst).Nodup := by
  by_cases h : ∃ p ∈ m, p.1 = k
  · rw [keys_modelInsert_replace h]
    exact hnd
  · rw [modelInsert, if_neg h]
    have hknot : k ∉ m.map Prod.fst := by
      intro hmem
      obtain ⟨p, hp, hp1⟩ := List.mem_map.mp hmem
      exact h ⟨p, hp, hp1⟩
    simp only [List.map_append, List.map_cons, List.map_nil]
    rw [List.nodup_append]
    exact ⟨hnd, List.nodup_singleton k, by simpa using hknot⟩

theorem length_modelInsert_replace {m : List (K × V)} {k : K}
    (h : ∃ p ∈ m, p.1 = k) (v : V) :
    (modelInsert m k v).length = m.length := by
  rw [modelInsert, if_pos h, List.length_map]

theorem length_modelInsert_new {m : List (K × V)} {k : K}
    (h : ¬ ∃ p ∈ m, p.1 = k) (v : V) :
    (modelInsert m k v).length = m.length + 1 := by
  rw [modelInsert, if_neg h, List.length_append, List.length_singleton]

theorem keys_mem_modelInsert {m : List (K × V)} {x k : K} (v : V) :
    x ∈ (modelInsert m k v).map Prod.fst ↔ x ∈ m.map Prod.fst ∨ x = k := by
  by_cases h : ∃ p ∈ m, p.1 = k
  · rw [keys_modelInsert_replace h]
    constructor
    · exact Or.inl
    · rintro (hmem | rfl)
      · exact hmem
      · obtain ⟨p, hp, hp1⟩ := h
        exact List.mem_map.mpr ⟨p, hp, hp1⟩
  · rw [modelInsert, if_neg h]
    simp

/-! ### One insertion refines one model insertion -/

theorem models_insert {hf : K → Nat} {t : HashTable K V} {m : List (K × V)}
    (hG : Good hf t m) (k : K) (v : V) :
    Good hf (insert hf t k v) (modelInsert m k v) ∧ insert_ok hf t k := by
  obtain ⟨⟨hInv, hsm, hndm, hmem⟩, hload, e, hshape⟩ := hG
  by_cases hk : ∃ p ∈ m, p.1 = k
  · -- the key is present: the probe search finds it and overwrites in place
    obtain ⟨p, hp, hp1⟩ := hk
    have hpe : (k, p.2) = p := by rw [← hp1]
    have hkw : (k, p.2) ∈ m := by rw [hpe]; exact hp
    obtain ⟨j, hj⟩ := (hmem k p.2).mpr hkw
    have hfs : find_slot hf t k = some j := find_slot_complete hInv hj
    have hjlt : j < t.slots.length := slotAt_some_lt hj
    have hkeq : ∀ x, keyAt (t.slots.set j (some (k, v))) x = keyAt t.slots x := by
      intro x
      rcases Classical.em (x = j) with rfl | hne
      · rw [keyAt_set_self hjlt]
        show some k = keyAt t.slots x
        unfold keyAt
        rw [hj]
        rfl
      · exact keyAt_set_ne hne _
    have hiss : ∀ x, (slotAt t.slots x).isSome = true →
        (slotAt (t.slots.set j (some (k, v))) x).isSome = true :=
      fun x hx => isSome_set_some hjlt _ hx
    have hInv' : Inv hf ⟨t.slots.set j (some (k, v)), t.size⟩ := by
      refine ⟨?_, ?_, ?_, ?_⟩
      · show 0 < (t.slots.set j (some (k, v))).length
        rw [List.length_set]
        exact hInv.1
      · show t.size = countSome (t.slots.set j (some (k, v)))
        rw [countSome_set_some_of_some hj]
        exact hInv.2.1
      · intro i1 hi1 j1 hj1 hne hkey
        rw [List.length_set] at hi1 hj1
        rw [hkeq i1, hkeq j1] at hkey
        rw [hkeq i1]
        exact hInv.2.2.1 i1 hi1 j1 hj1 hne hkey
      · apply chainsOK_intro
        intro j1 k1 w1 hslot mm hmm
        simp only [List.length_set] at hmm ⊢
        rcases Classical.em (j1 = j) with rfl | hne1
        · rw [slotAt_set_self hjlt] at hslot
          have hk1 : k = k1 := by simpa using congrArg (Option.map Prod.fst) hslot
          subst hk1
          exact hiss _ (chainsOK_elim hInv.2.2.2 hj hmm)
        · rw [slotAt_set_ne hne1] at hslot
          exact hiss _ (chainsOK_elim hInv.2.2.2 hslot hmm)
    have hmem' : ∀ k' v', MapsTo (⟨t.slots.set j (some (k, v)), t.size⟩ :
        HashTable K V) k' v' ↔ (k', v') ∈ modelInsert m k v := by
      intro k' v'
      constructor
      · rintro ⟨j1, hj1⟩
        rcases Classical.em (j1 = j) with rfl | hne1
        · rw [slotAt_set_self hjlt] at hj1
          have hkv : k = k' ∧ v = v' := by simpa using hj1
          rw [← hkv.1, ← hkv.2]
          exact mem_modelInsert_self m k v
        · rw [slotAt_set_ne hne1] at hj1
          by_cases hkk : k' = k
          · exfalso
            subst hkk
            have hkey1 : keyAt t.slots j1 = some k' := by
              unfold keyAt
              rw [hj1]
              rfl
            have hkey2 : keyAt t.slots j = some k' := by
              unfold keyAt
              rw [hj]
              rfl
            have hcon := hInv.2.2.1 j1 (slotAt_some_lt hj1) j hjlt hne1
              (by rw [hkey1, hkey2])
            rw [hkey1] at hcon
            exact Option.noConfusion hcon
          · exact (mem_modelInsert_ne hkk m v v').mpr ((hmem k' v').mp ⟨j1, hj1⟩)
      · intro hmm
        by_cases hkk : k' = k
        · subst hkk
          have hv : v' = v := mem_modelInsert_key hmm
          subst hv
          exact ⟨j, slotAt_set_self hjlt _⟩
        · have hold : (k', v') ∈ m := (mem_modelInsert_ne hkk m v v').mp hmm
          obtain ⟨j1, hj1⟩ := (hmem k' v').mpr hold
          have hne1 : j1 ≠ j := by
            intro heq
            rw [heq, hj] at hj1
            have hkv : k = k' ∧ p.2 = v' := by simpa using hj1
            exact hkk hkv.1.symm
          exact ⟨j1, by rw [slotAt_set_ne hne1]; exact hj1⟩
    rw [insert_found_eq hfs v]
    refine ⟨⟨⟨hInv', ?_, keys_nodup_modelInsert hndm k v, hmem'⟩, ?_, ⟨e, ?_⟩⟩,
      Or.inl (by rw [hfs]; rfl)⟩
    · show t.size = (modelInsert m k v).length
      rw [length_modelInsert_replace ⟨p, hp, hp1⟩]
      exact hsm
    · show 2 * t.size ≤ (t.slots.set j (some (k, v))).length
      rw [List.length_set]
      exact hload
    · show (t.slots.set j (some (k, v))).length = 16 * 2 ^ e
      rw [List.length_set]
      exact hshape
  · -- the key is absent: possibly grow, then place in the first empty slot
    have habs : ∀ w, ¬ MapsTo t k w := by
      intro w hw
      exact hk ⟨(k, w), (hmem k w).mp hw, rfl⟩
    have hfs : find_slot hf t k = none := find_slot_eq_none habs
    have hbundle : Inv hf (growIfNeeded hf t) ∧
        (growIfNeeded hf t).size = t.size ∧
        (∀ k' v', MapsTo (growIfNeeded hf t) k' v' ↔ MapsTo t k' v') ∧
        countSome (growIfNeeded hf t).slots < (growIfNeeded hf t).slots.length ∧
        2 * (t.size + 1) ≤ (growIfNeeded hf t).slots.length ∧
        ∃ e1 : Nat, (growIfNeeded hf t).slots.length = 16 * 2 ^ e1 := by
      by_cases htr : t.slots.length ≤ t.size * 2
      · have ht1 : growIfNeeded hf t = resize hf t := by
          rw [growIfNeeded, if_pos htr]
        obtain ⟨hInv1, hlen1, hsize1, hmem1⟩ := resize_spec hInv
        rw [ht1]
        have hn := hInv.1
        refine ⟨hInv1, hsize1, fun k' v' => hmem1 k' v', ?_, ?_, ⟨e + 1, ?_⟩⟩
        · have hc : (resize hf t).size = countSome (resize hf t).slots :=
            hInv1.2.1
          rw [← hc, hsize1, hlen1]
          omega
        · rw [hlen1]
          omega
        · rw [hlen1, hshape]
          ring
      · have ht1 : growIfNeeded hf t = t := by rw [growIfNeeded, if_neg htr]
        rw [ht1]
        have heven : t.slots.length = 2 * (8 * 2 ^ e) := by rw [hshape]; ring
        refine ⟨hInv, rfl, fun k' v' => Iff.rfl, ?_, ?_, ⟨e, hshape⟩⟩
        · rw [← hInv.2.1]
          omega
        · omega
    obtain ⟨hInv1, hsize1, hmem1, hroom1, hload1, e1, hshape1⟩ := hbundle
    have habs1 : ∀ w, ¬ MapsTo (growIfNeeded hf t) k w :=
      fun w hw => habs w ((hmem1 k w).mp hw)
    have hfs1 : find_slot hf (growIfNeeded hf t) k = none := find_slot_eq_none habs1
    obtain ⟨hInv', hlen', hsize', hmem', hok⟩ :=
      insertNoResize_spec hInv1 habs1 hroom1 (v := v)
    have hins : insert hf t k v = insertNoResize hf (growIfNeeded hf t) k v := by
      rw [insert_none_eq hfs v, insertNoResize, hfs1]
    rw [hins]
    refine ⟨⟨⟨hInv', ?_, keys_nodup_modelInsert hndm k v, ?_⟩, ?_, ⟨e1, ?_⟩⟩,
      Or.inr hok⟩
    · rw [hsize', hsize1, hsm, length_modelInsert_new hk]
    · intro k' v'
      rw [hmem' k' v']
      constructor
      · rintro (⟨rfl, rfl⟩ | hold)
        · exact mem_modelInsert_self _ _ _
        · by_cases hkk : k' = k
          · subst hkk
            exact absurd ((hmem1 k' v').mp hold) (habs v')
          · exact (mem_modelInsert_ne hkk m v v').mpr
              ((hmem k' v').mp ((hmem1 k' v').mp hold))
      · intro hm'
        by_cases hkk : k' = k
        · subst hkk
          have hv := mem_modelInsert_key hm'
          subst hv
          exact Or.inl ⟨rfl, rfl⟩
        · exact Or.inr ((hmem1 k' v').mpr ((hmem k' v').mpr
            ((mem_modelInsert_ne hkk m v v').mp hm')))
    · rw [hsize', hlen', hsize1]
      exact hload1
    · rw [hlen']
      exact hshape1

/-- A fresh table satisfies the representation invariant. -/
theorem inv_new (hf : K → Nat) : Inv hf (HashTable.new : HashTable K V) := by
  have hslots : (HashTable.new : HashTable K V).slots =
      List.replicate INITIAL_CAPACITY none := rfl
  refine ⟨?_, ?_, ?_, ?_⟩
  · rw [hslots]
    simp [INITIAL_CAPACITY]
  · show 0 = countSome (HashTable.new : HashTable K V).slots
    rw [hslots, countSome_replicate]
  · intro i hi j hj hne hkey
    show keyAt (HashTable.new : HashTable K V).slots i = none
    rw [hslots]
    unfold keyAt
    rw [slotAt_replicate]
    rfl
  · apply chainsOK_intro
    intro j k w hslot m hm
    rw [hslots, slotAt_replicate] at hslot
    exact Option.noConfusion hslot

/-- A fresh table models the empty association list. -/
theorem good_new (hf : K → Nat) : Good hf (HashTable.new : HashTable K V) [] := by
  have hslots : (HashTable.new : HashTable K V).slots =
      List.replicate INITIAL_CAPACITY none := rfl
  refine ⟨⟨inv_new hf, rfl, by simp, ?_⟩, ?_, 0, ?_⟩
  · intro k v
    constructor
    · rintro ⟨j, hj⟩
      rw [hslots, slotAt_replicate] at hj
      exact Option.noConfusion hj
    · intro h
      simp at h
  · show 2 * 0 ≤ (HashTable.new : HashTable K V).slots.length
    rw [hslots]
    simp
  · rw [hslots]
    simp [INITIAL_CAPACITY]

/-- A whole sequence of insertions refines the corresponding sequence of
model insertions. -/
theorem good_insertList (hf : K → Nat) :
    ∀ (ps : List (K × V)) (t : HashTable K V) (m : List (K × V)),
      Good hf t m → Good hf (insertList hf t ps) (modelList m ps) := by
  intro ps
  induction ps with
  | nil => intro t m h; exact h
  | cons p rest ih =>
    intro t m h
    exact ih (insert hf t p.1 p.2) (modelInsert m p.1 p.2)
      (models_insert h p.1 p.2).1

/-! ### Bindings of the model after a sequence of insertions -/

theorem mem_modelList_preserved {k : K} {v : V} :
    ∀ (ps : List (K × V)) (m : List (K × V)), k ∉ ps.map Prod.fst →
      (k, v) ∈ m → (k, v) ∈ modelList m ps := by
  intro ps
  induction ps with
  | nil => intro m _ h; exact h
  | cons p rest ih =>
    intro m hnot hm
    have hne : k ≠ p.1 := by
      intro heq
      exact hnot (by simp [heq])
    have hstep : modelList m (p :: rest) = modelList (modelInsert m p.1 p.2) rest := rfl
    rw [hstep]
    refine ih _ (by intro hmem; exact hnot (by simp [hmem])) ?_
    exact (mem_modelInsert_ne hne m p.2 v).mpr hm

/-- With pairwise-distinct keys, every inserted pair is a binding of the
final model. -/
theorem mem_modelList_of_mem {k : K} {v : V} :
    ∀ (ps : List (K × V)) (m : List (K × V)), (ps.map Prod.fst).Nodup →
      (k, v) ∈ ps → (k, v) ∈ modelList m ps := by
  intro ps
  induction ps with
  | nil => intro m _ h; simp at h
  | cons p rest ih =>
    intro m hnd hin
    have hstep : modelList m (p :: rest) = modelList (modelInsert m p.1 p.2) rest := rfl
    rw [hstep]
    have hnd2 : p.1 ∉ rest.map Prod.fst ∧ (rest.map Prod.fst).Nodup := by
      simpa using hnd
    rcases List.mem_cons.mp hin with heq | hin'
    · have hkp : k = p.1 ∧ v = p.2 := by
        constructor
        · exact congrArg Prod.fst heq
        · exact congrArg Prod.snd heq
      rw [hkp.1, hkp.2]
      exact mem_modelList_preserved rest _ hnd2.1 (mem_modelInsert_self m p.1 p.2)
    · exact ih _ hnd2.2 hin'

theorem keys_mem_modelList {x : K} :
    ∀ (ps : List (K × V)) (m : List (K × V)),
      x ∈ (modelList m ps).map Prod.fst ↔
        x ∈ m.map Prod.fst ∨ x ∈ ps.map Prod.fst := by
  intro ps
  induction ps with
  | nil => intro m; simp [modelList]
  | cons p rest ih =>
    intro m
    have hstep : modelList m (p :: rest) = modelList (modelInsert m p.1 p.2) rest := rfl
    rw [hstep, ih, keys_mem_modelInsert]
    simp
    tauto

/-- Shared helper: the size after a sequence of insertions on a fresh table is
the number of distinct inserted keys. -/
theorem size_insertList_dedup (hf : K → Nat) (ps : List (K × V)) :
    (insertList hf HashTable.new ps).size = ((ps.map Prod.fst).dedup).length := by
  obtain ⟨⟨hInv, hsm, hndm, hmem⟩, _, _⟩ :=
    good_insertList hf ps HashTable.new [] (good_new hf)
  rw [hsm]
  have hkeys : ∀ x, x ∈ (modelList ([] : List (K × V)) ps).map Prod.fst ↔
      x ∈ (ps.map Prod.fst).dedup := by
    intro x
    rw [keys_mem_modelList, List.mem_dedup]
    simp
  have hperm : List.Perm ((modelList ([] : List (K × V)) ps).map Prod.fst)
      ((ps.map Prod.fst).dedup) :=
    (List.perm_ext_iff_of_nodup hndm (List.nodup_dedup _)).mpr hkeys
  have hlen := hperm.length_eq
  rw [List.length_map] at hlen
  exact hlen

/-! ## The claims -/

/-- C1: for every sequence of insertions with pairwise-distinct keys performed
on a fresh table (in any order, no removals), a subsequent `get` on each
inserted key returns the value inserted for it (its last-inserted value,
since with distinct keys each key is inserted once). -/
theorem C1_round_trip (hf : K → Nat) (ps : List (K × V))
    (hnd : (ps.map Prod.fst).Nodup) (k : K) (v : V) (hin : (k, v) ∈ ps) :
    get hf (insertList hf HashTable.new ps) k = some v := by
  obtain ⟨⟨hInv, _, _, hmem⟩, _, _⟩ :=
    good_insertList hf ps HashTable.new [] (good_new hf)
  apply get_some_of_mapsTo hInv
  exact (hmem k v).mpr (mem_modelList_of_mem ps [] hnd hin)

theorem C1_round_trip_witness :
    get (fun n => n) (insertList (fun n => n) HashTable.new
      [((0 : Nat), (10 : Nat)), (1, 20)]) 0 = some 10 :=
  C1_round_trip (fun n => n) [((0 : Nat), (10 : Nat)), (1, 20)] (by decide)
    0 10 (by decide)

/-- C2: `remove` clears the found slot to Empty and performs no tombstone or
backward-shift repair (the resulting slot array is exactly the old one with
that single slot cleared); consequently, inserting keys 0 and 16 (which
collide at ideal index 0 under the identity hash on a 16-slot table), then
removing 0, makes `get 16` return `none` even though the never-removed pair
(16, 20) is still physically present in slot 1. -/
theorem C2_remove_no_repair :
    (∀ (hf : Nat → Nat) (t : HashTable Nat Nat) (k : Nat),
      (remove hf t k).2.slots =
        (match find_slot hf t k with
          | some i => t.slots.set i none
          | none => t.slots)) ∧
    get (fun n => n) (remove (fun n => n)
      (insertList (fun n => n) HashTable.new [(0, 10), (16, 20)]) 0).2 16 =
        none ∧
    slotAt (remove (fun n => n)
      (insertList (fun n => n) HashTable.new [(0, 10), (16, 20)]) 0).2.slots 1 =
        some (16, 20) ∧
    (remove (fun n => n)
      (insertList (fun n => n) HashTable.new [(0, 10), (16, 20)]) 0).2.slots =
      (insertList (fun n => n) HashTable.new [(0, 10), (16, 20)]).slots.set
        0 none := by
  refine ⟨?_, by decide, by decide, by decide⟩
  intro hf t k
  cases h : find_slot hf t k with
  | none => rw [remove_none_eq h]
  | some i =>
    obtain ⟨w, hw⟩ := findSlotAux_sound _ _ _ h
    rw [remove_found_eq h, hw]

/-- C3 as stated is false: after inserting the eight distinct keys 0..7 into a
fresh table (identity hash, no collisions, no growth), size = 8 and
capacity = 16, so `size * 2 < capacity` fails (16 < 16 is false). -/
theorem C3_counterexample :
    ¬ ((insertList (fun n => n) HashTable.new
        [((0 : Nat), (0 : Nat)), (1, 1), (2, 2), (3, 3), (4, 4), (5, 5),
          (6, 6), (7, 7)]).size ≤
      (insertList (fun n => n) HashTable.new
        [((0 : Nat), (0 : Nat)), (1, 1), (2, 2), (3, 3), (4, 4), (5, 5),
          (6, 6), (7, 7)]).slots.length ∧
      (insertList (fun n => n) HashTable.new
        [((0 : Nat), (0 : Nat)), (1, 1), (2, 2), (3, 3), (4, 4), (5, 5),
          (6, 6), (7, 7)]).size * 2 <
      (insertList (fun n => n) HashTable.new
        [((0 : Nat), (0 : Nat)), (1, 1), (2, 2), (3, 3), (4, 4), (5, 5),
          (6, 6), (7, 7)]).slots.length) := by
  decide

/-- C3 amended: after every operation of any insert/remove sequence on a
fresh table, `size ≤ capacity` and `size * 2 ≤ capacity` (the load factor
stays at most 50%; it reaches exactly 50% when the table is half full, and
the next insertion of a new key grows it). -/
theorem C3_amended (hf : K → Nat) (ops : List (Op K V)) :
    (applyOps hf ops).size ≤ (applyOps hf ops).slots.length ∧
    2 * (applyOps hf ops).size ≤ (applyOps hf ops).slots.length := by
  obtain ⟨hsz, hload, e, hshape⟩ := wf_applyOps hf ops
  exact ⟨by omega, hload⟩

/-- C4 as stated is false: insert 0 and 16 (colliding at ideal index 0 under
the identity hash), remove 0, then insert 16 again.  The probe search misses
the still-present binding of 16 through the cleared slot, so 16 is stored a
second time: size = 2, while the number of distinct keys inserted and not
subsequently removed is 1. -/
theorem C4_counterexample :
    ¬ ((applyOps (fun n => n)
        [Op.ins (0 : Nat) (10 : Nat), Op.ins 16 20, Op.del 0,
          Op.ins 16 30]).size =
      (liveKeys [Op.ins (0 : Nat) (10 : Nat), Op.ins 16 20, Op.del 0,
          Op.ins 16 30]).length) := by
  decide

/-- C4 amended: for every sequence of insert operations (no removals) on a
fresh table, after each operation the size equals the number of distinct keys
inserted so far; with removals a cleared slot can hide a later colliding key
from the probe search and break the accounting. -/
theorem C4_amended (hf : K → Nat) (ps : List (K × V)) :
    (insertList hf HashTable.new ps).size = ((ps.map Prod.fst).dedup).length :=
  size_insertList_dedup hf ps

/-- C5: inserting a key that the probe search finds in an Occupied slot
overwrites that slot in place, leaves size unchanged, and a subsequent `get`
returns the newly inserted value. -/
theorem C5_overwrite (hf : K → Nat) (t : HashTable K V) (k : K) (v : V)
    (i : Nat) (h : find_slot hf t k = some i) :
    insert hf t k v = ⟨t.slots.set i (some (k, v)), t.size⟩ ∧
    (insert hf t k v).size = t.size ∧
    get hf (insert hf t k v) k = some v := by
  have heq := insert_found_eq h v
  refine ⟨heq, by rw [heq], ?_⟩
  rw [heq]
  obtain ⟨w, hw⟩ := findSlotAux_sound _ _ _ h
  have hfs' := find_slot_overwrite h v
  rw [get, hfs']
  show (slotAt (t.slots.set i (some (k, v))) i).map Prod.snd = some v
  rw [slotAt_set_self (slotAt_some_lt hw)]
  rfl

theorem C5_overwrite_witness :
    get (fun n => n) (insert (fun n => n)
      (insertList (fun n => n) HashTable.new [((3 : Nat), (5 : Nat))]) 3 7) 3 =
      some 7 :=
  (C5_overwrite (fun n => n)
    (insertList (fun n => n) HashTable.new [((3 : Nat), (5 : Nat))]) 3 7 3
    (by decide)).2.2

/-- C6: on any table state, a key the probe search does not find yields the
absent signal from both `get` and `remove`, and `remove` returns the table
unchanged (same size, same slot array); `get` does not mutate at all, being a
pure function of the table. -/
theorem C6_absent (hf : K → Nat) (t : HashTable K V) (k : K)
    (h : find_slot hf t k = none) :
    get hf t k = none ∧ remove hf t k = (none, t) :=
  ⟨by rw [get, h], remove_none_eq h⟩

theorem C6_absent_witness :
    get (fun n => n) (HashTable.new : HashTable Nat Nat) 5 = none ∧
    remove (fun n => n) (HashTable.new : HashTable Nat Nat) 5 =
      (none, HashTable.new) :=
  ⟨(C6_absent (fun n => n) HashTable.new 5 (by decide)).1,
    (C6_absent (fun n => n) HashTable.new 5 (by decide)).2⟩

/-- C7: after inserting N pairwise-distinct keys into a fresh table, the
capacity is at least 2N and equals 16 times a power of two; and no insert in
the sequence ever fails: each one either finds the key to overwrite or finds
an empty slot for placement (the placement loop terminates). -/
theorem C7_growth (hf : K → Nat) (ps : List (K × V))
    (hnd : (ps.map Prod.fst).Nodup) :
    2 * ps.length ≤ (insertList hf HashTable.new ps).slots.length ∧
    (∃ e : Nat, (insertList hf HashTable.new ps).slots.length = 16 * 2 ^ e) ∧
    ∀ l p r, ps = l ++ p :: r →
      insert_ok hf (insertList hf HashTable.new l) p.1 := by
  obtain ⟨hM, hload, hshape⟩ :=
    good_insertList hf ps HashTable.new [] (good_new hf)
  refine ⟨?_, hshape, ?_⟩
  · have hsz : (insertList hf HashTable.new ps).size = ps.length := by
      rw [size_insertList_dedup hf ps, List.dedup_eq_self.mpr hnd,
        List.length_map]
    rw [← hsz]
    exact hload
  · intro l p r _
    exact (models_insert (good_insertList hf l HashTable.new [] (good_new hf))
      p.1 p.2).2

theorem C7_growth_witness :
    2 * 2 ≤ (insertList (fun n => n) HashTable.new
      [((0 : Nat), (1 : Nat)), (1, 2)]).slots.length ∧
    insert_ok (fun n => n) (insertList (fun n => n)
      (HashTable.new : HashTable Nat Nat) []) 0 := by
  have h := C7_growth (fun n => n) [((0 : Nat), (1 : Nat)), (1, 2)] (by decide)
  exact ⟨h.1, h.2.2 [] (0, 1) [(1, 2)] rfl⟩

/-- C8: on an invariant-satisfying table, `resize` (the source's grow)
doubles the capacity, preserves the size (after resetting it to 0 and
re-inserting every occupied pair in array order through the insert path), and
every key present before the grow is still gettable with the same value. -/
theorem C8_grow (hf : K → Nat) (t : HashTable K V) (hInv : Inv hf t) :
    (resize hf t).slots.length = 2 * t.slots.length ∧
    (resize hf t).size = t.size ∧
    ∀ k v, MapsTo t k v → get hf (resize hf t) k = some v := by
  obtain ⟨hInv1, hlen1, hsize1, hmem1⟩ := resize_spec hInv
  exact ⟨hlen1, hsize1,
    fun k v hm => get_some_of_mapsTo hInv1 ((hmem1 k v).mpr hm)⟩

theorem C8_grow_witness :
    (resize (fun n => n) (insertList (fun n => n) HashTable.new
      [((0 : Nat), (5 : Nat)), (1, 6)])).size =
      (insertList (fun n => n) HashTable.new
        [((0 : Nat), (5 : Nat)), (1, 6)]).size ∧
    get (fun n => n) (resize (fun n => n) (insertList (fun n => n)
      HashTable.new [((0 : Nat), (5 : Nat)), (1, 6)])) 0 = some 5 := by
  have h := C8_grow (fun n => n)
    (insertList (fun n => n) HashTable.new [((0 : Nat), (5 : Nat)), (1, 6)])
    (by decide)
  exact ⟨h.2.1, h.2.2 0 5 ⟨0, by decide⟩⟩

/-- C9: `find_slot` terminates on every table state (it is a total function
scanning at most `capacity` slots before the wrap-around stop) and is fully
characterised: starting from the ideal index `hash(key) % capacity` it
returns the first Occupied slot whose key equals the target, returns `none`
upon reaching an Empty slot, returns `none` if it wraps all the way around
through Occupied non-matching slots, and any returned index holds the target
key. -/
theorem C9_find_slot (hf : K → Nat) (t : HashTable K V) (key : K)
    (hn : 0 < t.slots.length) :
    (∀ m j, m < t.slots.length →
      j = (hf key % t.slots.length + m) % t.slots.length →
      (∀ m', m' < m → ∃ k' v',
        slotAt t.slots ((hf key % t.slots.length + m') % t.slots.length) =
          some (k', v') ∧ k' ≠ key) →
      (∃ v, slotAt t.slots j = some (key, v)) →
      find_slot hf t key = some j) ∧
    (∀ m, m < t.slots.length →
      (∀ m', m' < m → ∃ k' v',
        slotAt t.slots ((hf key % t.slots.length + m') % t.slots.length) =
          some (k', v') ∧ k' ≠ key) →
      slotAt t.slots ((hf key % t.slots.length + m) % t.slots.length) = none →
      find_slot hf t key = none) ∧
    ((∀ m, m < t.slots.length → ∃ k' v',
        slotAt t.slots ((hf key % t.slots.length + m) % t.slots.length) =
          some (k', v') ∧ k' ≠ key) →
      find_slot hf t key = none) ∧
    (∀ j, find_slot hf t key = some j → ∃ v, slotAt t.slots j = some (key, v)) := by
  have hstart : hf key % t.slots.length < t.slots.length := Nat.mod_lt _ hn
  refine ⟨?_, ?_, ?_, ?_⟩
  · intro m j hm hj hpath htarget
    rw [hj] at htarget ⊢
    exact findSlotAux_path_some m t.slots.length _ hstart hm hpath htarget
  · intro m hm hpath hempty
    exact findSlotAux_path_none m t.slots.length _ hstart hm hpath hempty
  · intro hpath
    exact findSlotAux_allmiss t.slots.length _ hstart hpath
  · intro j h
    exact findSlotAux_sound _ _ _ h

theorem C9_find_slot_witness :
    find_slot (fun n => n) (insertList (fun n => n) HashTable.new
      [((0 : Nat), (10 : Nat)), (16, 20)]) 16 = some 1 := by
  have h := C9_find_slot (fun n => n)
    (insertList (fun n => n) HashTable.new [((0 : Nat), (10 : Nat)), (16, 20)])
    16 (by decide)
  refine h.1 1 1 (by decide) (by decide) ?_ ⟨20, by decide⟩
  intro m' hm'
  have hm0 : m' = 0 := by omega
  subst hm0
  exact ⟨0, 10, by decide, by decide⟩

/-- C10: along every sequence of insert and remove operations from a fresh
table, the size field equals the number of Occupied slots of the backing
array; and `resize` re-establishes this equation from scratch on every input
table. -/
theorem C10_size_count (hf : K → Nat) (ops : List (Op K V)) :
    (applyOps hf ops).size = countSome (applyOps hf ops).slots ∧
    ∀ (t : HashTable K V), (resize hf t).size = countSome (resize hf t).slots :=
  ⟨(wf_applyOps hf ops).1, fun t => sizeCount_resize hf t⟩

end HashTableProof
